import Mathlib

/-!
Shallow embedding of the PDF outline extraction pipeline
(`Challenge_1a/process_pdfs.py`) and verification of its specification.

Fonts sizes and vertical coordinates are modelled as rationals (`ℚ`);
text as `String`; the nested block/line/span tree of a page as nested
lists.  Every Python helper of the pipeline has a Lean definition of the
same name (where legal) translated from the source.
-/

namespace PDFOutline

/-- A raw span of the external layout tree: `{text, font, size, bbox}`
(`y` is `bbox[1]`, the top edge). -/
structure Span where
  text : String
  font : String
  size : ℚ
  y : ℚ
deriving DecidableEq, Repr

/-- One page: the `block → line → span` tree, flattened shape preserved. -/
structure Page where
  blocks : List (List (List Span))
deriving DecidableEq, Repr

/-- An opened document: optional metadata title plus the pages. -/
structure Document where
  metaTitle : Option String
  pages : List Page
deriving DecidableEq, Repr

/-- A collected fragment (the dicts appended to `raw_lines`, and equally
the dicts produced by `merge_multiline_headings`). -/
structure Line where
  page : ℕ
  text : String
  size : ℚ
  bold : Bool
  y : ℚ
deriving DecidableEq, Repr

/-- One output heading `{level, text, page}`. -/
structure Heading where
  level : String
  text : String
  page : ℕ
deriving DecidableEq, Repr

/-- The final artifact `{title, outline}`. -/
structure Outline where
  title : String
  outline : List Heading
deriving DecidableEq, Repr

/-! ### Text cleaning (`clean_heading_text`) -/

/-- `re.sub(r"\s+", " ", text)`: collapse every maximal run of whitespace
characters into a single space. -/
def collapseWS : List Char → List Char
  | [] => []
  | [c] => if c.isWhitespace then [' '] else [c]
  | a :: b :: rest =>
    if a.isWhitespace && b.isWhitespace then collapseWS (b :: rest)
    else (if a.isWhitespace then ' ' else a) :: collapseWS (b :: rest)

/-- Character class `[\s\-:]` of the trailing-junk pattern. -/
def trailJunk (c : Char) : Bool :=
  c.isWhitespace || c = '-' || c = ':'

/-- `clean_heading_text`: strip, collapse whitespace runs, remove the
trailing `[\s\-:]+` run. -/
def clean_heading_text (text : String) : String :=
  let t1 := text.trim
  let t2 := collapseWS t1.toList
  let t3 := (t2.reverse.dropWhile trailJunk).reverse
  String.mk t3

/-! ### Small predicates -/

/-- `is_table_header`: lowercased text is in the fixed disallowed set. -/
def is_table_header (text : String) : Bool :=
  (["s.no", "name", "age", "relationship"] : List String).contains text.toLower

/-- `re.fullmatch(r"\d+\.?", s)`: one or more digits, then an optional
single dot, consuming the whole string. -/
def numOnly (cs : List Char) : Bool :=
  let ds := cs.takeWhile Char.isDigit
  let rest := cs.dropWhile Char.isDigit
  !ds.isEmpty && (rest.isEmpty || rest = ['.'])

/-- `is_number_only`: full match of `\d+\.?` on the stripped text. -/
def is_number_only (text : String) : Bool :=
  numOnly text.trim.toList

/-- Substring test on character lists (Python's `needle in hay`). -/
def hasSub (needle hay : List Char) : Bool :=
  hay.tails.any (fun t => needle.isPrefixOf t)

/-- `"Bold" in font_name or "bold" in font_name` (line 131 of the source). -/
def spanBold (font : String) : Bool :=
  hasSub "Bold".toList font.toList || hasSub "bold".toList font.toList

/-! ### Generic-title detection (`is_generic_title`) -/

/-- `[0-9]` (ASCII digit range of the `^Document[0-9]*$` pattern). -/
def asciiDigit (c : Char) : Bool :=
  '0' ≤ c && c ≤ '9'

/-- `is_generic_title`: `None`/empty is generic; otherwise the five
case-insensitive patterns `^Microsoft Word`, `^Document[0-9]*$`,
`^Untitled`, `\.docx?$`, `\.pdf$` are tried with `re.search`. -/
def is_generic_title (title : Option String) : Bool :=
  match title with
  | none => true
  | some t =>
    if t = "" then true
    else
      let l := t.toLower.toList
      List.isPrefixOf ("microsoft word".toList) l
      || (l.take 8 = "document".toList && (l.drop 8).all asciiDigit)
      || List.isPrefixOf ("untitled".toList) l
      || List.isSuffixOf (".doc".toList) l
      || List.isSuffixOf (".docx".toList) l
      || List.isSuffixOf (".pdf".toList) l

/-! ### Fragment collection (`extract_headings_from_pdf`, lines 121-139) -/

/-- Processing of one span in the collection loop: clean the text,
discard it when the cleaned length is `< 3`, otherwise build the
fragment record. -/
def collectSpan (pageNumber : ℕ) (sp : Span) : Option Line :=
  let t := clean_heading_text sp.text
  if t.length < 3 then none
  else some { page := pageNumber, text := t, size := sp.size,
              bold := spanBold sp.font, y := sp.y }

/-- The nested `page → block → line → span` traversal building
`raw_lines`, with 1-based page numbers. -/
def collectLines (doc : Document) : List Line :=
  doc.pages.enum.flatMap (fun p =>
    p.2.blocks.flatMap (fun b =>
      b.flatMap (fun ln => ln.filterMap (collectSpan (p.1 + 1)))))

/-! ### Multiline merging (`merge_multiline_headings`) -/

/-- `' '.join(texts)`. -/
def spaceJoin : List String → String
  | [] => ""
  | [s] => s
  | s :: rest => s ++ " " ++ spaceJoin rest

/-- Flushing a (non-empty) buffer `bhead :: btail` into one merged line:
page, size and y from the first element, boldness as `any`, text as the
space-join of the members' texts. -/
def flushChunk (bhead : Line) (btail : List Line) : Line :=
  { page := bhead.page
    size := bhead.size
    bold := (bhead :: btail).any (fun l => l.bold)
    y := bhead.y
    text := spaceJoin ((bhead :: btail).map (fun l => l.text)) }

/-- The extension condition of the merger (lines 57-61 of the source):
same page, `|size − last.size| < 0.1`, `|y − last.y| < 25`, where `last`
is the most recently buffered fragment. -/
def sameGroup (last line : Line) : Bool :=
  line.page == last.page
  && decide (|line.size - last.size| < 1/10)
  && decide (|line.y - last.y| < 25)

/-- The merger's forward loop.  `bhead :: btail` is the open buffer and
`last` the most recently appended fragment (the Python `last` variable). -/
def mergeLoop (bhead : Line) (btail : List Line) (last : Line) :
    List Line → List Line
  | [] => [flushChunk bhead btail]
  | line :: rest =>
    if sameGroup last line then
      mergeLoop bhead (btail ++ [line]) line rest
    else
      flushChunk bhead btail :: mergeLoop line [] line rest

/-- `merge_multiline_headings`. -/
def merge_multiline_headings : List Line → List Line
  | [] => []
  | line :: rest => mergeLoop line [] line rest

/-- Specification-side grouping: the buffers the merger accumulates, as
(head, tail) pairs, before flushing. -/
def chunkLoop (bhead : Line) (btail : List Line) (last : Line) :
    List Line → List (Line × List Line)
  | [] => [(bhead, btail)]
  | line :: rest =>
    if sameGroup last line then
      chunkLoop bhead (btail ++ [line]) line rest
    else
      (bhead, btail) :: chunkLoop line [] line rest

/-- The buffers of a whole run of the merger. -/
def chunks : List Line → List (Line × List Line)
  | [] => []
  | line :: rest => chunkLoop line [] line rest

/-- The fragments of a buffer, in order. -/
def chunkList (c : Line × List Line) : List Line :=
  c.1 :: c.2

/-- The last fragment of a buffer. -/
def chunkLast (c : Line × List Line) : Line :=
  c.2.getLastD c.1

/-! ### Font-size classification (`group_font_sizes`) -/

/-- Insertion into a descending-sorted list. -/
def insertDesc (x : ℚ) : List ℚ → List ℚ
  | [] => [x]
  | y :: ys => if x ≥ y then x :: y :: ys else y :: insertDesc x ys

/-- Descending insertion sort (`sorted(·, reverse=True)`). -/
def sortDesc : List ℚ → List ℚ
  | [] => []
  | x :: xs => insertDesc x (sortDesc xs)

/-- `sorted(set(font_sizes), reverse=True)`. -/
def uniqueSorted (xs : List ℚ) : List ℚ :=
  sortDesc xs.dedup

/-- Level names: `f"H{idx+1}"`. -/
def levelName (idx : ℕ) : String :=
  "H" ++ toString (idx + 1)

/-- `group_font_sizes`: the up-to-3 largest distinct sizes, largest
first, paired with `"H1"`, `"H2"`, `"H3"`. -/
def group_font_sizes (font_sizes : List ℚ) : List (ℚ × String) :=
  ((uniqueSorted font_sizes).take 3).enum.map (fun p => (p.2, levelName p.1))

/-! ### Heading filtering (`extract_headings_from_pdf`, lines 146-166) -/

/-- The dedup key `(level, text.lower(), page)`. -/
def headingKey (level : String) (line : Line) : String × String × ℕ :=
  (level, line.text.toLower, line.page)

/-- The filter/dedup loop over merged lines, carrying the `seen` set. -/
def headingsLoop (levels : List (ℚ × String))
    (seen : List (String × String × ℕ)) : List Line → List Heading
  | [] => []
  | line :: rest =>
    match levels.lookup line.size with
    | none => headingsLoop levels seen rest
    | some level =>
      if is_table_header line.text || is_number_only line.text then
        headingsLoop levels seen rest
      else if line.bold || decide (line.y < 200) || level == "H1" then
        if seen.contains (headingKey level line) then
          headingsLoop levels seen rest
        else
          { level := level, text := line.text, page := line.page } ::
            headingsLoop levels (headingKey level line :: seen) rest
      else headingsLoop levels seen rest

/-- `extract_headings_from_pdf`: collect, merge, classify, filter. -/
def extract_headings_from_pdf (doc : Document) : List Heading :=
  let merged_lines := merge_multiline_headings (collectLines doc)
  let heading_levels := group_font_sizes (merged_lines.map (fun l => l.size))
  if heading_levels = [] then []
  else headingsLoop heading_levels [] merged_lines

/-! ### Title resolution (`get_document_title`) -/

/-- The first-page candidate triples `(size, -y, cleaned text)` for
cleaned spans of length `> 3`. -/
def titleCandidates (doc : Document) : List (ℚ × ℚ × String) :=
  (doc.pages.headD ⟨[]⟩).blocks.flatMap (fun b =>
    b.flatMap (fun ln => ln.filterMap (fun sp =>
      let t := clean_heading_text sp.text
      if 3 < t.length then some (sp.size, -sp.y, t) else none)))

/-- Python code-point comparison of strings, on character lists. -/
def charListLt : List Char → List Char → Bool
  | [], [] => false
  | [], _ :: _ => true
  | _ :: _, [] => false
  | a :: as, b :: bs =>
    if a < b then true else if b < a then false else charListLt as bs

/-- Lexicographic `<` on the candidate triples (Python tuple order). -/
def candLt (a b : ℚ × ℚ × String) : Bool :=
  decide (a.1 < b.1)
  || (a.1 == b.1
      && (decide (a.2.1 < b.2.1)
          || (a.2.1 == b.2.1 && charListLt a.2.2.toList b.2.2.toList)))

/-- `candidates.sort(reverse=True); candidates[0]`: the lexicographic
maximum of a non-empty candidate list. -/
def pickBest (c : ℚ × ℚ × String) (cs : List (ℚ × ℚ × String)) :
    ℚ × ℚ × String :=
  cs.foldl (fun acc d => if candLt acc d then d else acc) c

/-- `get_document_title`. -/
def get_document_title (doc : Document) : String :=
  if is_generic_title doc.metaTitle = false then
    (doc.metaTitle.getD "").trim
  else
    match titleCandidates doc with
    | [] => "Untitled Document"
    | c :: cs => (pickBest c cs).2.2

/-- The per-document pipeline: title plus extracted outline (the
`output_data` value written for each document). -/
def processDocument (doc : Document) : Outline :=
  { title := get_document_title doc, outline := extract_headings_from_pdf doc }

/-! ### Specification-side definitions used by the theorem statements -/

/-- The dedup key of an output heading. -/
def hKey (h : Heading) : String × String × ℕ :=
  (h.level, h.text.toLower, h.page)

/-- First-occurrence deduplication of headings by their key, given an
initial `seen` set. -/
def dedupFirst (seen : List (String × String × ℕ)) :
    List Heading → List Heading
  | [] => []
  | h :: rest =>
    if seen.contains (hKey h) then dedupFirst seen rest
    else h :: dedupFirst (hKey h :: seen) rest

/-- The per-line emission condition of the heading filter, before
deduplication: a level exists for the exact size, the text is neither a
table header nor number-only, and the bold/position/H1 disjunction holds. -/
def emitCond (levels : List (ℚ × String)) (line : Line) : Bool :=
  match levels.lookup line.size with
  | none => false
  | some level =>
    !(is_table_header line.text || is_number_only line.text)
    && (line.bold || decide (line.y < 200) || level == "H1")

/-- The heading built for an emitted line. -/
def mkHeading (levels : List (ℚ × String)) (line : Line) : Heading :=
  { level := (levels.lookup line.size).getD "", text := line.text,
    page := line.page }

/-- The pre-deduplication candidate heading sequence of the filter. -/
def filterCandidates (levels : List (ℚ × String)) (merged : List Line) :
    List Heading :=
  (merged.filter (emitCond levels)).map (mkHeading levels)

/-- Spec-side reading of `\d+\.?` fullmatch: the stripped text is one or
more digits, optionally followed by a single trailing dot. -/
def numberLike (t : String) : Prop :=
  ∃ ds : List Char, ds ≠ [] ∧ (∀ c ∈ ds, c.isDigit = true) ∧
    (t.trim.toList = ds ∨ t.trim.toList = ds ++ ['.'])

/-- Spec-side reading of the generic-title checks, amended to the code's
anchoring: case-insensitive prefix `Microsoft Word`, the whole title being
`Document` followed by zero or more digits, case-insensitive prefix
`Untitled`, or case-insensitive suffix `.doc`/`.docx`/`.pdf`. -/
def matchesGenericSpec (s : String) : Prop :=
  (∃ r, s.toLower.toList = "microsoft word".toList ++ r)
  ∨ (∃ ds, (∀ c ∈ ds, asciiDigit c = true)
      ∧ s.toLower.toList = "document".toList ++ ds)
  ∨ (∃ r, s.toLower.toList = "untitled".toList ++ r)
  ∨ (∃ p, s.toLower.toList = p ++ ".doc".toList)
  ∨ (∃ p, s.toLower.toList = p ++ ".docx".toList)
  ∨ (∃ p, s.toLower.toList = p ++ ".pdf".toList)

/-- The number of distinct sizes in `sizes` strictly greater than `s`
(the rank of `s` among the distinct sizes, 0 = largest). -/
def distinctGreaterCount (s : ℚ) (sizes : List ℚ) : ℕ :=
  ((sizes.filter (fun t => s < t)).dedup).length

/-- The extension condition of the merger as the specification states it
(relative to the most recently buffered fragment). -/
def adjOk (a b : Line) : Prop :=
  b.page = a.page ∧ |b.size - a.size| < 1/10 ∧ |b.y - a.y| < 25

/-! ### Concrete data for witnesses and counterexamples -/

/-- Fragment with size 10. -/
def fragA : Line := { page := 1, text := "aaa", size := 10, bold := false, y := 0 }

/-- Fragment with size 10.09 (within 0.1 of `fragA`). -/
def fragB : Line := { page := 1, text := "bbb", size := 1009/100, bold := false, y := 10 }

/-- Fragment with size 10.18 (within 0.1 of `fragB`, not of `fragA`). -/
def fragC : Line := { page := 1, text := "ccc", size := 509/50, bold := false, y := 20 }

/-- A document with one page and no spans. -/
def docEmptyPage : Document := { metaTitle := none, pages := [⟨[]⟩] }

/-- A document whose metadata title starts with `Document` followed by
digits but has further text after the digits. -/
def docTitled : Document :=
  { metaTitle := some "Document12 report", pages := [⟨[]⟩] }

/-- A document whose only span has an upper-case `BOLD` in its font name. -/
def docBoldFont : Document :=
  { metaTitle := none,
    pages := [⟨[[[{ text := "Heading One", font := "ARIAL-BOLD",
                    size := 20, y := 50 }]]]⟩] }

/-- A document with a generic metadata title and two first-page spans of
different sizes. -/
def docFallback : Document :=
  { metaTitle := some "Untitled 3",
    pages := [⟨[[[{ text := "Big Title", font := "F", size := 30, y := 90 },
                  { text := "small text", font := "F", size := 11, y := 40 }]]]⟩] }

/-- A non-trivial document used by witnesses: metadata title present and
non-generic, two pages, three merged-line sizes. -/
def docRich : Document :=
  { metaTitle := some " My Paper ",
    pages :=
      [⟨[[[{ text := "Alpha", font := "Arial-Bold", size := 24, y := 50 }]],
         [[{ text := "12.", font := "Arial", size := 18, y := 60 }]]]⟩,
       ⟨[[[{ text := "Beta", font := "Arial", size := 18, y := 300 },
           { text := "Name", font := "Arial-Bold", size := 18, y := 100 }]],
         [[{ text := "gamma text", font := "Arial", size := 12, y := 400 }]]]⟩] }

/-- Merged lines exercising the classifier example sizes
`[24,24,18,18,12,12,10]`. -/
def mlClassify : List Line :=
  [ { page := 1, text := "t24a", size := 24, bold := true, y := 50 },
    { page := 1, text := "t24b", size := 24, bold := true, y := 500 },
    { page := 2, text := "t18a", size := 18, bold := true, y := 50 },
    { page := 2, text := "t18b", size := 18, bold := true, y := 500 },
    { page := 3, text := "t12a", size := 12, bold := true, y := 50 },
    { page := 3, text := "t12b", size := 12, bold := true, y := 500 },
    { page := 3, text := "t10a", size := 10, bold := true, y := 50 } ]

/-- The LevelMap of `mlClassify`. -/
def lvlEx : List (ℚ × String) :=
  group_font_sizes (mlClassify.map (fun l => l.size))

end PDFOutline

namespace PDFOutline

/-! ## Helper lemmas about strings and lists -/

theorem isPrefixOf_iff_ex : ∀ (p l : List Char),
    p.isPrefixOf l = true ↔ ∃ r, l = p ++ r
  | [], l => by simp [List.isPrefixOf]
  | a :: as, [] => by simp [List.isPrefixOf]
  | a :: as, b :: bs => by
    simp only [List.isPrefixOf, Bool.and_eq_true, beq_iff_eq,
      isPrefixOf_iff_ex as bs, List.cons_append, List.cons.injEq]
    constructor
    · rintro ⟨rfl, r, rfl⟩
      exact ⟨r, rfl, rfl⟩
    · rintro ⟨r, rfl, rfl⟩
      exact ⟨rfl, r, rfl⟩

theorem isSuffixOf_iff_ex (p l : List Char) :
    p.isSuffixOf l = true ↔ ∃ r, l = r ++ p := by
  rw [List.isSuffixOf, isPrefixOf_iff_ex]
  constructor
  · rintro ⟨r, hr⟩
    refine ⟨r.reverse, ?_⟩
    have h := congrArg List.reverse hr
    simpa using h
  · rintro ⟨r, rfl⟩
    exact ⟨r.reverse, by simp⟩

theorem hasSub_iff (n h : List Char) :
    hasSub n h = true ↔ ∃ p r, h = p ++ n ++ r := by
  induction h with
  | nil =>
    constructor
    · intro hx
      have hpre : n.isPrefixOf [] = true := by
        simpa [hasSub, List.tails] using hx
      rcases (isPrefixOf_iff_ex n []).mp hpre with ⟨r, hr⟩
      exact ⟨[], r, by simpa using hr⟩
    · rintro ⟨p, r, hr⟩
      rw [List.append_assoc] at hr
      rcases List.append_eq_nil.mp hr.symm with ⟨rfl, h2⟩
      rcases List.append_eq_nil.mp h2 with ⟨rfl, rfl⟩
      simp [hasSub, List.tails, List.isPrefixOf]
  | cons c t ih =>
    simp only [hasSub, List.tails_cons, List.any_cons] at *
    rw [Bool.or_eq_true, ih, isPrefixOf_iff_ex]
    constructor
    · rintro (⟨r, hr⟩ | ⟨p, r, hr⟩)
      · exact ⟨[], r, by simpa using hr⟩
      · exact ⟨c :: p, r, by simp [hr]⟩
    · rintro ⟨p, r, hr⟩
      cases p with
      | nil => exact Or.inl ⟨r, by simpa using hr⟩
      | cons x p =>
        right
        refine ⟨p, r, ?_⟩
        have := hr
        simp only [List.cons_append, List.cons.injEq] at this
        exact this.2

theorem take_drop_document (l : List Char) :
    (l.take 8 = "document".toList ∧ (l.drop 8).all asciiDigit = true) ↔
    ∃ ds, (∀ c ∈ ds, asciiDigit c = true) ∧ l = "document".toList ++ ds := by
  have hlen : ("document".toList).length = 8 := by decide
  constructor
  · rintro ⟨h1, h2⟩
    refine ⟨l.drop 8, ?_, ?_⟩
    · simpa [List.all_eq_true] using h2
    · conv_lhs => rw [← List.take_append_drop 8 l]
      rw [h1]
  · rintro ⟨ds, hds, rfl⟩
    constructor
    · rw [← hlen, List.take_left]
    · rw [← hlen, List.drop_left]
      simpa [List.all_eq_true] using hds

/-! ## C9 — determinism of the per-document pipeline -/

/-- C9: the pipeline downstream of fragment collection is a total
function — two runs on the same document (same fragment tree and
metadata) produce identical Outlines. -/
theorem claim9_pipeline_deterministic (d₁ d₂ : Document) (h : d₁ = d₂) :
    processDocument d₁ = processDocument d₂ := by
  rw [h]

theorem claim9_witness :
    processDocument docRich = processDocument docRich :=
  claim9_pipeline_deterministic docRich docRich rfl

/-! ## C8 — empty documents are not errors -/

/-- C8: if zero fragments survive collection in a document with at least
one page, the pipeline still produces an Outline with an empty heading
list, and the title is resolved from the metadata (trimmed, when
non-generic) or as the sentinel `"Untitled Document"`. -/
theorem claim8_empty_document (doc : Document) (hp : doc.pages ≠ [])
    (hc : collectLines doc = []) :
    processDocument doc = { title := get_document_title doc, outline := [] }
    ∧ (is_generic_title doc.metaTitle = false →
        (processDocument doc).title = (doc.metaTitle.getD "").trim)
    ∧ (is_generic_title doc.metaTitle = true → titleCandidates doc = [] →
        (processDocument doc).title = "Untitled Document") := by
  have hout : extract_headings_from_pdf doc = [] := by
    simp [extract_headings_from_pdf, hc, merge_multiline_headings,
      group_font_sizes, uniqueSorted, sortDesc]
  refine ⟨by simp [processDocument, hout], ?_, ?_⟩
  · intro hg
    simp [processDocument, get_document_title, hg]
  · intro hg hcand
    simp [processDocument, get_document_title, hg, hcand]

theorem claim8_witness :
    docEmptyPage.pages ≠ [] ∧ collectLines docEmptyPage = [] ∧
    processDocument docEmptyPage = { title := "Untitled Document", outline := [] } := by
  have h := claim8_empty_document docEmptyPage (by simp [docEmptyPage])
    (by with_unfolding_all decide)
  refine ⟨by simp [docEmptyPage], by with_unfolding_all decide, ?_⟩
  have h3 := h.2.2 (by with_unfolding_all decide) (by with_unfolding_all decide)
  rw [h.1]
  rw [h.1] at h3
  simp only at h3
  simp [h3]

end PDFOutline

namespace PDFOutline

/-! ## C3 — boldness detection -/

/-- C3 counterexample: the font name `"ARIAL-BOLD"` contains `"bold"`
case-insensitively, yet the collector marks the span as not bold — the
code only tests for the exact substrings `"Bold"` and `"bold"`. -/
theorem claim3_counterexample :
    spanBold "ARIAL-BOLD" = false
    ∧ hasSub ("bold".toList) ("ARIAL-BOLD".toLower.toList) = true
    ∧ (collectLines docBoldFont).map (fun l => l.bold) = [false] := by
  refine ⟨by decide, by with_unfolding_all decide, by with_unfolding_all decide⟩

/-- C3 (amended): the collector sets `isBold` to true iff the span's
font name contains `"Bold"` or `"bold"` as a case-sensitive substring. -/
theorem claim3_bold_detection :
    (∀ font : String, spanBold font = true ↔
      ((∃ p r, font.toList = p ++ "Bold".toList ++ r)
        ∨ (∃ p r, font.toList = p ++ "bold".toList ++ r)))
    ∧ ∀ (pg : ℕ) (sp : Span) (l : Line),
        collectSpan pg sp = some l → l.bold = spanBold sp.font := by
  constructor
  · intro font
    simp [spanBold, Bool.or_eq_true, hasSub_iff]
  · intro pg sp l h
    simp only [collectSpan] at h
    split at h
    · exact Option.noConfusion h
    · injection h with h'
      rw [← h']

theorem claim3_witness :
    ({ page := 1, text := "Heading One", size := 20, bold := false, y := 50 } : Line).bold
      = spanBold "ARIAL-BOLD" :=
  claim3_bold_detection.2 1
    { text := "Heading One", font := "ARIAL-BOLD", size := 20, y := 50 }
    { page := 1, text := "Heading One", size := 20, bold := false, y := 50 }
    (by with_unfolding_all decide)

/-! ## C7 — generic-title detection -/

/-- C7 counterexample: `"Document12 report"` has prefix `"Document"`
followed by digits, so the claim calls it generic; the code's pattern is
anchored at both ends (`^Document[0-9]*$`), does not match, and the
resolver returns the metadata title itself. -/
theorem claim7_counterexample :
    ("Document12 report" : String) = "Document" ++ "12" ++ " report"
    ∧ ("12" : String).toList.all Char.isDigit = true
    ∧ is_generic_title (some "Document12 report") = false
    ∧ get_document_title docTitled = "Document12 report" := by
  refine ⟨by decide, by decide, by with_unfolding_all decide,
    by with_unfolding_all decide⟩

/-- C7 (amended): the resolver returns the metadata title trimmed iff it
is present, non-empty, and matches none of the generic checks, where the
`Document` check matches the entire title (`Document` followed by zero
or more digits) rather than a mere prefix. -/
theorem claim7_generic_title :
    (∀ t : Option String, is_generic_title t = false ↔
      ∃ s, t = some s ∧ s ≠ "" ∧ ¬ matchesGenericSpec s)
    ∧ (∀ doc : Document, is_generic_title doc.metaTitle = false →
        get_document_title doc = (doc.metaTitle.getD "").trim) := by
  constructor
  · intro t
    cases t with
    | none => simp [is_generic_title]
    | some s =>
      by_cases hs : s = ""
      · subst hs
        simp [is_generic_title]
      · have key : (is_generic_title (some s) = true) ↔ matchesGenericSpec s := by
          simp only [is_generic_title, if_neg hs, matchesGenericSpec,
            Bool.or_eq_true, Bool.and_eq_true, decide_eq_true_eq,
            isPrefixOf_iff_ex, isSuffixOf_iff_ex]
          rw [take_drop_document]
          simp only [or_assoc]
        constructor
        · intro h
          refine ⟨s, rfl, hs, ?_⟩
          rw [← key]
          simp [h]
        · rintro ⟨s', hs', hne, hgen⟩
          injection hs' with hss
          subst hss
          rw [← key] at hgen
          simpa using hgen
  · intro doc h
    simp [get_document_title, h]

theorem claim7_witness :
    is_generic_title (some "My Paper") = false
    ∧ get_document_title { metaTitle := some "My Paper", pages := [⟨[]⟩] } = "My Paper" := by
  have hg : is_generic_title (some "My Paper") = false := by
    with_unfolding_all decide
  refine ⟨hg, ?_⟩
  have h := claim7_generic_title.2 { metaTitle := some "My Paper", pages := [⟨[]⟩] } hg
  rw [h]
  with_unfolding_all decide

end PDFOutline

namespace PDFOutline

/-! ## Merger lemmas -/

theorem sameGroup_iff (a b : Line) : sameGroup a b = true ↔ adjOk a b := by
  simp [sameGroup, adjOk, Bool.and_eq_true, beq_iff_eq, decide_eq_true_eq,
    and_assoc]

theorem mergeLoop_eq_chunkLoop (rest : List Line) :
    ∀ (bhead : Line) (btail : List Line) (last : Line),
    mergeLoop bhead btail last rest =
      (chunkLoop bhead btail last rest).map (fun c => flushChunk c.1 c.2) := by
  induction rest with
  | nil => intro bhead btail last; simp [mergeLoop, chunkLoop]
  | cons line rest ih =>
    intro bhead btail last
    simp only [mergeLoop, chunkLoop]
    by_cases h : sameGroup last line
    · simp [h, ih]
    · simp [h, ih]

theorem merge_eq_chunks (lines : List Line) :
    merge_multiline_headings lines =
      (chunks lines).map (fun c => flushChunk c.1 c.2) := by
  cases lines with
  | nil => simp [merge_multiline_headings, chunks]
  | cons line rest =>
    simp [merge_multiline_headings, chunks, mergeLoop_eq_chunkLoop]

theorem chunkLoop_flatten (rest : List Line) :
    ∀ (bhead : Line) (btail : List Line) (last : Line),
    (chunkLoop bhead btail last rest).flatMap chunkList =
      bhead :: (btail ++ rest) := by
  induction rest with
  | nil => intro bhead btail last; simp [chunkLoop, chunkList]
  | cons line rest ih =>
    intro bhead btail last
    simp only [chunkLoop]
    by_cases h : sameGroup last line
    · rw [if_pos h, ih]
      simp
    · rw [if_neg h]
      simp only [List.flatMap_cons, ih]
      simp [chunkList]

theorem chunks_flatten (lines : List Line) :
    (chunks lines).flatMap chunkList = lines := by
  cases lines with
  | nil => simp [chunks]
  | cons line rest => simp [chunks, chunkLoop_flatten]

theorem chunkLoop_head (rest : List Line) :
    ∀ (bhead : Line) (btail : List Line) (last : Line),
    ∃ t2 tl, chunkLoop bhead btail last rest = (bhead, t2) :: tl := by
  induction rest with
  | nil => intro bhead btail last; exact ⟨btail, [], rfl⟩
  | cons line rest ih =>
    intro bhead btail last
    simp only [chunkLoop]
    by_cases h : sameGroup last line
    · rw [if_pos h]
      exact ih bhead (btail ++ [line]) line
    · rw [if_neg h]
      exact ⟨btail, chunkLoop line [] line rest, rfl⟩

theorem getLast?_cons_getLastD {α : Type} (a : α) (l : List α) :
    (a :: l).getLast? = some (l.getLastD a) := by
  induction l generalizing a with
  | nil => rfl
  | cons b bs ih => rw [List.getLast?_cons_cons, ih b, List.getLastD_cons]

theorem chunkLoop_chain (rest : List Line) :
    ∀ (bhead : Line) (btail : List Line) (last : Line),
    btail.getLastD bhead = last →
    List.Chain' (fun a b => sameGroup a b = true) (bhead :: btail) →
    ∀ c ∈ chunkLoop bhead btail last rest,
      List.Chain' (fun a b => sameGroup a b = true) (chunkList c) := by
  induction rest with
  | nil =>
    intro bhead btail last _ hch c hc
    simp only [chunkLoop, List.mem_singleton] at hc
    subst hc
    exact hch
  | cons line rest ih =>
    intro bhead btail last hlast hch c hc
    simp only [chunkLoop] at hc
    by_cases h : sameGroup last line
    · rw [if_pos h] at hc
      refine ih bhead (btail ++ [line]) line (List.getLastD_concat _ _ _) ?_ c hc
      rw [show bhead :: (btail ++ [line]) = (bhead :: btail) ++ [line] by simp]
      rw [List.chain'_append]
      refine ⟨hch, List.chain'_singleton _, ?_⟩
      intro x hx y hy
      simp only [List.head?_cons, Option.mem_def, Option.some.injEq] at hy
      subst hy
      rw [getLast?_cons_getLastD] at hx
      simp only [Option.mem_def, Option.some.injEq] at hx
      rw [hx] at hlast
      rw [hlast]
      exact h
    · rw [if_neg h] at hc
      rcases List.mem_cons.mp hc with hc1 | hc2
      · subst hc1
        exact hch
      · exact ih line [] line rfl (List.chain'_singleton _) c hc2

end PDFOutline

namespace PDFOutline

theorem chunkLoop_boundary (rest : List Line) :
    ∀ (bhead : Line) (btail : List Line) (last : Line),
    btail.getLastD bhead = last →
    List.Chain' (fun c d => sameGroup (chunkLast c) d.1 = false)
      (chunkLoop bhead btail last rest) := by
  induction rest with
  | nil =>
    intro bhead btail last _
    exact List.chain'_singleton _
  | cons line rest ih =>
    intro bhead btail last hlast
    simp only [chunkLoop]
    by_cases h : sameGroup last line
    · rw [if_pos h]
      exact ih bhead (btail ++ [line]) line (List.getLastD_concat _ _ _)
    · rw [if_neg h]
      rcases chunkLoop_head rest line [] line with ⟨t2, tl, heq⟩
      rw [heq]
      rw [List.chain'_cons]
      constructor
      · show sameGroup (chunkLast (bhead, btail)) line = false
        have : chunkLast (bhead, btail) = last := hlast
        rw [this]
        exact Bool.of_not_eq_true h
      · rw [← heq]
        exact ih line [] line rfl

theorem chunks_chain (lines : List Line) :
    ∀ c ∈ chunks lines,
      List.Chain' (fun a b => sameGroup a b = true) (chunkList c) := by
  cases lines with
  | nil => intro c hc; simp [chunks] at hc
  | cons line rest =>
    intro c hc
    exact chunkLoop_chain rest line [] line rfl (List.chain'_singleton _) c hc

theorem chunks_boundary (lines : List Line) :
    List.Chain' (fun c d => sameGroup (chunkLast c) d.1 = false)
      (chunks lines) := by
  cases lines with
  | nil => simp [chunks]
  | cons line rest => exact chunkLoop_boundary rest line [] line rfl

/-! ## C1 — the merger's extension condition -/

/-- C1 counterexample: three same-page fragments with sizes 10, 10.09 and
10.18 and vertical gaps of 10 are merged into a single line even though
the third fragment's size differs from the buffer's FIRST fragment's size
by 0.18 ≥ 0.1 — the code compares against the LAST buffered fragment, so
contributors of one MergedLine need not all be within 0.1 of each other. -/
theorem claim1_counterexample :
    merge_multiline_headings [fragA, fragB, fragC] =
      [{ page := 1, text := "aaa bbb ccc", size := 10, bold := false, y := 0 }]
    ∧ fragA.page = fragC.page
    ∧ ¬ (|fragC.size - fragA.size| < 1/10) := by
  refine ⟨by with_unfolding_all decide, rfl, by with_unfolding_all decide⟩

/-- C1 (amended): the merger extends the open buffer iff the next
fragment is on the same page as, within 0.1 in size of, and within 25 in
yTop of the LAST buffered fragment; consequently consecutive contributors
of every MergedLine satisfy these bounds (sizes may drift farther apart
across a buffer), each flush boundary is a consecutive pair violating the
condition, and two same-page, same-size consecutive fragments with
|Δy| ≥ 25 never merge. -/
theorem claim1_merge_extension (lines : List Line) :
    merge_multiline_headings lines =
      (chunks lines).map (fun c => flushChunk c.1 c.2)
    ∧ (chunks lines).flatMap chunkList = lines
    ∧ (∀ c ∈ chunks lines, List.Chain' adjOk (chunkList c))
    ∧ List.Chain' (fun c d => ¬ adjOk (chunkLast c) d.1) (chunks lines) := by
  refine ⟨merge_eq_chunks lines, chunks_flatten lines, ?_, ?_⟩
  · intro c hc
    have h := chunks_chain lines c hc
    exact List.Chain'.imp (fun a b hab => (sameGroup_iff a b).mp hab) h
  · have h := chunks_boundary lines
    refine List.Chain'.imp ?_ h
    intro c d hcd
    rw [← sameGroup_iff]
    simp [hcd]

set_option maxRecDepth 4000 in
theorem claim1_witness :
    merge_multiline_headings [fragA, fragB, fragC] =
      (chunks [fragA, fragB, fragC]).map (fun c => flushChunk c.1 c.2)
    ∧ List.Chain' adjOk (chunkList (fragA, [fragB, fragC])) := by
  have h := claim1_merge_extension [fragA, fragB, fragC]
  exact ⟨h.1, h.2.2.1 (fragA, [fragB, fragC]) (by with_unfolding_all decide)⟩

/-! ## C10 — text preservation through the merger -/

theorem spaceJoin_append (xs ys : List String) (hx : xs ≠ []) (hy : ys ≠ []) :
    spaceJoin (xs ++ ys) = spaceJoin xs ++ " " ++ spaceJoin ys := by
  induction xs with
  | nil => exact absurd rfl hx
  | cons s xs ih =>
    cases xs with
    | nil =>
      cases ys with
      | nil => exact absurd rfl hy
      | cons y ys => simp [spaceJoin]
    | cons x xs2 =>
      have h2 : spaceJoin ((x :: xs2) ++ ys) =
          spaceJoin (x :: xs2) ++ " " ++ spaceJoin ys :=
        ih (by simp)
      show spaceJoin (s :: ((x :: xs2) ++ ys)) = _
      rw [show spaceJoin (s :: ((x :: xs2) ++ ys)) =
        s ++ " " ++ spaceJoin ((x :: xs2) ++ ys) from rfl]
      rw [h2]
      rw [show spaceJoin (s :: x :: xs2) = s ++ " " ++ spaceJoin (x :: xs2) from rfl]
      simp [String.append_assoc]

theorem spaceJoin_chunks :
    ∀ (cs : List (Line × List Line)),
    spaceJoin (cs.map (fun c => spaceJoin ((chunkList c).map (fun l => l.text)))) =
      spaceJoin ((cs.flatMap chunkList).map (fun l => l.text)) := by
  intro cs
  induction cs with
  | nil => rfl
  | cons c cs ih =>
    cases cs with
    | nil => simp [spaceJoin]
    | cons c2 cs2 =>
      have hl : ((c2 :: cs2).flatMap chunkList).map (fun l => l.text) ≠ [] := by
        simp [chunkList]
      have hc : (chunkList c).map (fun l => l.text) ≠ [] := by
        simp [chunkList]
      rw [show ((c :: c2 :: cs2).map
          (fun c => spaceJoin ((chunkList c).map (fun l => l.text)))) =
        spaceJoin ((chunkList c).map (fun l => l.text)) ::
          ((c2 :: cs2).map (fun c => spaceJoin ((chunkList c).map (fun l => l.text))))
        from rfl]
      rw [show spaceJoin (spaceJoin ((chunkList c).map (fun l => l.text)) ::
          ((c2 :: cs2).map (fun c => spaceJoin ((chunkList c).map (fun l => l.text))))) =
        spaceJoin ((chunkList c).map (fun l => l.text)) ++ " " ++
          spaceJoin ((c2 :: cs2).map (fun c => spaceJoin ((chunkList c).map (fun l => l.text))))
        from rfl]
      rw [ih]
      rw [show ((c :: c2 :: cs2).flatMap chunkList).map (fun l => l.text) =
        (chunkList c).map (fun l => l.text) ++
          ((c2 :: cs2).flatMap chunkList).map (fun l => l.text) by simp]
      rw [spaceJoin_append _ _ hc hl]

/-- C10: the merger neither drops, duplicates nor reorders text — each
output line's text is the space-join of a contiguous non-empty block of
input fragments, the blocks partition the input in order, and the
space-join of all output texts equals the space-join of all input texts. -/
theorem claim10_text_preservation (lines : List Line) :
    ((merge_multiline_headings lines).map (fun l => l.text) =
      (chunks lines).map (fun c => spaceJoin ((chunkList c).map (fun l => l.text))))
    ∧ (chunks lines).flatMap chunkList = lines
    ∧ (∀ c ∈ chunks lines, chunkList c ≠ [])
    ∧ spaceJoin ((merge_multiline_headings lines).map (fun l => l.text)) =
        spaceJoin (lines.map (fun l => l.text)) := by
  have h1 : (merge_multiline_headings lines).map (fun l => l.text) =
      (chunks lines).map (fun c => spaceJoin ((chunkList c).map (fun l => l.text))) := by
    rw [merge_eq_chunks]
    simp [flushChunk, chunkList]
  refine ⟨h1, chunks_flatten lines, ?_, ?_⟩
  · intro c _
    simp [chunkList]
  · rw [h1, spaceJoin_chunks, chunks_flatten]

set_option maxRecDepth 4000 in
theorem claim10_witness :
    spaceJoin ((merge_multiline_headings [fragA, fragB, fragC]).map (fun l => l.text)) =
      spaceJoin ([fragA, fragB, fragC].map (fun l => l.text))
    ∧ chunkList (fragA, [fragB, fragC]) ≠ [] := by
  have h := claim10_text_preservation [fragA, fragB, fragC]
  exact ⟨h.2.2.2, h.2.2.1 (fragA, [fragB, fragC]) (by with_unfolding_all decide)⟩

end PDFOutline

namespace PDFOutline

/-! ## Filter lemmas -/

theorem takeWhile_all_append {p : Char → Bool} :
    ∀ (ds rest : List Char), (∀ c ∈ ds, p c = true) →
      (ds ++ rest).takeWhile p = ds ++ rest.takeWhile p := by
  intro ds rest h
  induction ds with
  | nil => simp
  | cons d ds ih =>
    have hd : p d = true := h d (by simp)
    simp only [List.cons_append, List.takeWhile_cons, hd, if_true]
    rw [ih (fun c hc => h c (by simp [hc]))]

theorem dropWhile_all_append {p : Char → Bool} :
    ∀ (ds rest : List Char), (∀ c ∈ ds, p c = true) →
      (ds ++ rest).dropWhile p = rest.dropWhile p := by
  intro ds rest h
  induction ds with
  | nil => simp
  | cons d ds ih =>
    have hd : p d = true := h d (by simp)
    simp only [List.cons_append, List.dropWhile_cons, hd, if_true]
    exact ih (fun c hc => h c (by simp [hc]))

theorem numOnly_iff (cs : List Char) :
    numOnly cs = true ↔
    ∃ ds, ds ≠ [] ∧ (∀ c ∈ ds, c.isDigit = true) ∧
      (cs = ds ∨ cs = ds ++ ['.']) := by
  constructor
  · intro h
    simp only [numOnly, Bool.and_eq_true, Bool.not_eq_true', Bool.or_eq_true,
      List.isEmpty_eq_false, List.isEmpty_eq_true, decide_eq_true_eq] at h
    refine ⟨cs.takeWhile Char.isDigit, h.1, ?_, ?_⟩
    · intro c hc
      exact List.mem_takeWhile_imp hc
    · rcases h with ⟨_, h2 | h2⟩
      · left
        conv_lhs => rw [← List.takeWhile_append_dropWhile (p := Char.isDigit) (l := cs)]
        simp [h2]
      · right
        conv_lhs => rw [← List.takeWhile_append_dropWhile (p := Char.isDigit) (l := cs)]
        rw [h2]
  · rintro ⟨ds, hne, hdig, hcs | hcs⟩
    · rw [hcs]
      have ht : ds.takeWhile Char.isDigit = ds := by
        have h0 := takeWhile_all_append ds [] hdig
        simpa using h0
      have hd : ds.dropWhile Char.isDigit = [] := by
        have h0 := dropWhile_all_append ds [] hdig
        simpa using h0
      simp [numOnly, ht, hd, hne]
    · rw [hcs]
      have ht : (ds ++ ['.']).takeWhile Char.isDigit = ds := by
        rw [takeWhile_all_append ds ['.'] hdig]
        simp [List.takeWhile]
      have hd : (ds ++ ['.']).dropWhile Char.isDigit = ['.'] := by
        rw [dropWhile_all_append ds ['.'] hdig]
        simp [List.dropWhile]
      simp [numOnly, ht, hd, hne]

theorem headingsLoop_eq (levels : List (ℚ × String)) :
    ∀ (lines : List Line) (seen : List (String × String × ℕ)),
    headingsLoop levels seen lines =
      dedupFirst seen ((lines.filter (emitCond levels)).map (mkHeading levels)) := by
  intro lines
  induction lines with
  | nil => intro seen; rfl
  | cons line rest ih =>
    intro seen
    cases hl : levels.lookup line.size with
    | none =>
      have he : emitCond levels line = false := by
        simp [emitCond, hl]
      simp only [headingsLoop, hl, List.filter_cons, he, Bool.false_eq_true,
        if_false]
      exact ih seen
    | some level =>
      by_cases htab : (is_table_header line.text || is_number_only line.text) = true
      · have he : emitCond levels line = false := by
          simp only [emitCond, hl, htab]
          simp
        simp only [headingsLoop, hl, htab, if_true, List.filter_cons, he,
          Bool.false_eq_true, if_false]
        exact ih seen
      · have htab' : (is_table_header line.text || is_number_only line.text) = false :=
          Bool.of_not_eq_true htab
        by_cases hacc : (line.bold || decide (line.y < 200) || level == "H1") = true
        · have he : emitCond levels line = true := by
            simp [emitCond, hl, htab', hacc]
          have hmk : mkHeading levels line =
              { level := level, text := line.text, page := line.page } := by
            simp [mkHeading, hl]
          have hkey2 : hKey ({ level := level, text := line.text, page := line.page } : Heading) =
              headingKey level line := by
            simp [hKey, headingKey]
          simp only [headingsLoop, hl, htab', Bool.false_eq_true, if_false, hacc,
            if_true, List.filter_cons, he, List.map_cons, dedupFirst, hmk, hkey2]
          by_cases hseen : seen.contains (headingKey level line) = true
          · simp only [hseen, if_true]
            exact ih seen
          · have hseen' : seen.contains (headingKey level line) = false :=
              Bool.of_not_eq_true hseen
            simp only [hseen', Bool.false_eq_true, if_false]
            rw [ih (headingKey level line :: seen)]
        · have hacc' : (line.bold || decide (line.y < 200) || level == "H1") = false :=
            Bool.of_not_eq_true hacc
          have he : emitCond levels line = false := by
            simp [emitCond, hl, htab', hacc']
          simp only [headingsLoop, hl, htab', Bool.false_eq_true, if_false, hacc',
            List.filter_cons, he]
          exact ih seen

end PDFOutline

namespace PDFOutline

theorem dedupFirst_mem_contains :
    ∀ (l : List Heading) (seen : List (String × String × ℕ)) (h : Heading),
    h ∈ dedupFirst seen l → seen.contains (hKey h) = false := by
  intro l
  induction l with
  | nil => intro seen h hm; simp [dedupFirst] at hm
  | cons a l ih =>
    intro seen h hm
    simp only [dedupFirst] at hm
    by_cases hc : seen.contains (hKey a) = true
    · simp only [hc, if_true] at hm
      exact ih seen h hm
    · have hc' := Bool.of_not_eq_true hc
      simp only [hc', Bool.false_eq_true, if_false] at hm
      rcases List.mem_cons.mp hm with rfl | hm2
      · exact hc'
      · have h2 := ih _ h hm2
        simp only [List.contains_cons, Bool.or_eq_false_iff] at h2
        exact h2.2

theorem dedupFirst_pairwise :
    ∀ (l : List Heading) (seen : List (String × String × ℕ)),
    List.Pairwise (fun a b => hKey a ≠ hKey b) (dedupFirst seen l) := by
  intro l
  induction l with
  | nil => intro seen; simp [dedupFirst]
  | cons a l ih =>
    intro seen
    simp only [dedupFirst]
    by_cases hc : seen.contains (hKey a) = true
    · simp only [hc, if_true]
      exact ih seen
    · have hc' := Bool.of_not_eq_true hc
      simp only [hc', Bool.false_eq_true, if_false]
      refine List.Pairwise.cons ?_ (ih _)
      intro b hb hke
      have h2 := dedupFirst_mem_contains l (hKey a :: seen) b hb
      simp only [List.contains_cons] at h2
      have h3 := (Bool.or_eq_false_iff.mp h2).1
      rw [hke] at h3
      simp at h3

theorem dedupFirst_sublist :
    ∀ (l : List Heading) (seen : List (String × String × ℕ)),
    (dedupFirst seen l).Sublist l := by
  intro l
  induction l with
  | nil => intro seen; simp [dedupFirst]
  | cons a l ih =>
    intro seen
    simp only [dedupFirst]
    by_cases hc : seen.contains (hKey a) = true
    · simp only [hc, if_true]
      exact List.Sublist.cons a (ih seen)
    · have hc' := Bool.of_not_eq_true hc
      simp only [hc', Bool.false_eq_true, if_false]
      exact List.Sublist.cons₂ a (ih _)

theorem dedupFirst_first :
    ∀ (pre : List Heading) (l : List Heading) (seen : List (String × String × ℕ))
      (a : Heading) (post : List Heading),
    l = pre ++ a :: post → seen.contains (hKey a) = false →
    (∀ b ∈ pre, hKey b ≠ hKey a) → a ∈ dedupFirst seen l := by
  intro pre
  induction pre with
  | nil =>
    intro l seen a post hl hc _
    subst hl
    simp only [List.nil_append, dedupFirst, hc, Bool.false_eq_true, if_false]
    exact List.mem_cons_self _ _
  | cons p pre ih =>
    intro l seen a post hl hc hpre
    subst hl
    simp only [List.cons_append, dedupFirst]
    by_cases hcp : seen.contains (hKey p) = true
    · simp only [hcp, if_true]
      exact ih _ seen a post rfl hc (fun b hb => hpre b (by simp [hb]))
    · have hcp' := Bool.of_not_eq_true hcp
      simp only [hcp', Bool.false_eq_true, if_false]
      refine List.mem_cons_of_mem _
        (ih _ (hKey p :: seen) a post rfl ?_ (fun b hb => hpre b (by simp [hb])))
      simp only [List.contains_cons, Bool.or_eq_false_iff]
      refine ⟨?_, hc⟩
      have hne := hpre p (by simp)
      simp only [beq_eq_false_iff_ne, ne_eq]
      intro he
      exact hne he.symm

end PDFOutline

namespace PDFOutline

/-! ## C2 — the heading heuristic filter -/

/-- C2: a merged line is emitted (pre-deduplication) iff its exact size
has a LevelMap entry, its lowercased text is not in the fixed disallowed
set, its text is not digits-with-optional-trailing-dot, and it is bold or
high on the page or mapped to H1; the output is the first-occurrence
deduplication of exactly those candidates, and every output heading
originates in a merged line whose size has an entry mapping to the
heading's level. -/
theorem claim2_heuristic_filter (levels : List (ℚ × String)) (merged : List Line) :
    headingsLoop levels [] merged = dedupFirst [] (filterCandidates levels merged)
    ∧ (∀ line : Line, emitCond levels line = true ↔
        ((∃ lvl, levels.lookup line.size = some lvl)
          ∧ line.text.toLower ∉ (["s.no", "name", "age", "relationship"] : List String)
          ∧ ¬ numberLike line.text
          ∧ (line.bold = true ∨ line.y < 200 ∨ levels.lookup line.size = some "H1")))
    ∧ (∀ h ∈ headingsLoop levels [] merged, ∃ line ∈ merged,
        levels.lookup line.size = some h.level ∧ h.text = line.text
          ∧ h.page = line.page) := by
  refine ⟨headingsLoop_eq levels merged [], ?_, ?_⟩
  · intro line
    cases hl : levels.lookup line.size with
    | none =>
      constructor
      · intro h
        simp [emitCond, hl] at h
      · rintro ⟨⟨lvl, hlvl⟩, -, -, -⟩
        exact Option.noConfusion hlvl
    | some lvl =>
      have hA : is_table_header line.text = false ↔
          line.text.toLower ∉ (["s.no", "name", "age", "relationship"] : List String) := by
        simp [is_table_header]
      have hB : is_number_only line.text = true ↔ numberLike line.text := by
        rw [is_number_only, numOnly_iff]
        exact Iff.rfl
      constructor
      · intro h
        simp only [emitCond, hl, Bool.and_eq_true, Bool.not_eq_true',
          Bool.or_eq_false_iff] at h
        obtain ⟨⟨ha, hb⟩, hc⟩ := h
        refine ⟨⟨lvl, rfl⟩, hA.mp ha, ?_, ?_⟩
        · intro hn
          rw [← hB] at hn
          rw [hn] at hb
          exact Bool.noConfusion hb
        · rcases (by simpa [Bool.or_eq_true, decide_eq_true_eq, or_assoc] using hc :
              line.bold = true ∨ line.y < 200 ∨ lvl = "H1") with h1 | h2 | h3
          · exact Or.inl h1
          · exact Or.inr (Or.inl h2)
          · exact Or.inr (Or.inr (by rw [h3]))
      · rintro ⟨-, ha, hb, hc⟩
        have ha' : is_table_header line.text = false := hA.mpr ha
        have hb' : is_number_only line.text = false := by
          cases hx : is_number_only line.text
          · rfl
          · exact absurd (hB.mp hx) hb
        have hc' : (line.bold || decide (line.y < 200) || lvl == "H1") = true := by
          rcases hc with h1 | h2 | h3
          · simp [h1]
          · simp [h2]
          · simp only [Option.some.injEq] at h3
            simp [h3]
        simp [emitCond, hl, ha', hb', hc']
  · intro h hm
    rw [headingsLoop_eq] at hm
    have hm2 : h ∈ (merged.filter (emitCond levels)).map (mkHeading levels) :=
      (dedupFirst_sublist _ _).subset hm
    rcases List.mem_map.mp hm2 with ⟨line, hline, rfl⟩
    rcases List.mem_filter.mp hline with ⟨hmem, hemit⟩
    cases hl : levels.lookup line.size with
    | none => simp [emitCond, hl] at hemit
    | some lvl =>
      refine ⟨line, hmem, ?_, rfl, rfl⟩
      simp [mkHeading, hl]

set_option maxRecDepth 8000 in
theorem claim2_witness :
    headingsLoop lvlEx [] mlClassify = dedupFirst [] (filterCandidates lvlEx mlClassify)
    ∧ ∃ line ∈ mlClassify, lvlEx.lookup line.size = some "H1"
        ∧ "t24a" = line.text ∧ 1 = line.page := by
  have h := claim2_heuristic_filter lvlEx mlClassify
  exact ⟨h.1, h.2.2 { level := "H1", text := "t24a", page := 1 }
    (by with_unfolding_all decide)⟩

/-! ## C5 — uniqueness and ordering of the output -/

/-- C5: no two output headings share the key (level, lowercased text,
page); the output is a sublist of the pre-deduplication candidate
sequence (so discovery order is preserved, never re-sorted); and any
candidate whose key is not matched by an earlier candidate appears in the
output (first occurrence wins). -/
theorem claim5_output_uniqueness (levels : List (ℚ × String)) (merged : List Line) :
    List.Pairwise (fun a b => hKey a ≠ hKey b) (headingsLoop levels [] merged)
    ∧ (headingsLoop levels [] merged).Sublist (filterCandidates levels merged)
    ∧ (∀ pre a post, filterCandidates levels merged = pre ++ a :: post →
        (∀ b ∈ pre, hKey b ≠ hKey a) → a ∈ headingsLoop levels [] merged) := by
  rw [headingsLoop_eq]
  refine ⟨dedupFirst_pairwise _ _, dedupFirst_sublist _ _, ?_⟩
  intro pre a post heq hpre
  exact dedupFirst_first pre _ [] a post heq rfl hpre

set_option maxRecDepth 8000 in
theorem claim5_witness :
    List.Pairwise (fun a b => hKey a ≠ hKey b) (headingsLoop lvlEx [] mlClassify)
    ∧ ({ level := "H1", text := "t24a", page := 1 } : Heading) ∈
        headingsLoop lvlEx [] mlClassify := by
  have h := claim5_output_uniqueness lvlEx mlClassify
  refine ⟨h.1, ?_⟩
  refine h.2.2 [] { level := "H1", text := "t24a", page := 1 }
    [ { level := "H1", text := "t24b", page := 1 },
      { level := "H2", text := "t18a", page := 2 },
      { level := "H2", text := "t18b", page := 2 },
      { level := "H3", text := "t12a", page := 3 },
      { level := "H3", text := "t12b", page := 3 } ]
    (by with_unfolding_all decide) (by simp)

end PDFOutline

namespace PDFOutline

/-! ## Classifier lemmas -/

theorem insertDesc_perm (x : ℚ) (l : List ℚ) : (insertDesc x l).Perm (x :: l) := by
  induction l with
  | nil => exact List.Perm.refl _
  | cons y ys ih =>
    simp only [insertDesc]
    by_cases h : x ≥ y
    · rw [if_pos h]
    · rw [if_neg h]
      exact (ih.cons y).trans (List.Perm.swap x y ys)

theorem sortDesc_perm (l : List ℚ) : (sortDesc l).Perm l := by
  induction l with
  | nil => exact List.Perm.refl _
  | cons x xs ih =>
    simp only [sortDesc]
    exact (insertDesc_perm x (sortDesc xs)).trans (ih.cons x)

theorem insertDesc_sorted (x : ℚ) (l : List ℚ) (h : List.Sorted (· ≥ ·) l) :
    List.Sorted (· ≥ ·) (insertDesc x l) := by
  induction l with
  | nil => simp [insertDesc]
  | cons y ys ih =>
    rcases List.pairwise_cons.mp h with ⟨hy, hys⟩
    simp only [insertDesc]
    by_cases hxy : x ≥ y
    · rw [if_pos hxy]
      refine List.Pairwise.cons ?_ h
      intro b hb
      rcases List.mem_cons.mp hb with rfl | hb2
      · exact hxy
      · exact le_trans (hy b hb2) hxy
    · rw [if_neg hxy]
      refine List.Pairwise.cons ?_ (ih hys)
      intro b hb
      have hb2 : b ∈ x :: ys := (insertDesc_perm x ys).subset hb
      rcases List.mem_cons.mp hb2 with rfl | hb3
      · exact le_of_lt (lt_of_not_ge hxy)
      · exact hy b hb3

theorem sortDesc_sorted (l : List ℚ) : List.Sorted (· ≥ ·) (sortDesc l) := by
  induction l with
  | nil => simp [sortDesc]
  | cons x xs ih => exact insertDesc_sorted x (sortDesc xs) ih

theorem uniqueSorted_mem (xs : List ℚ) (s : ℚ) :
    s ∈ uniqueSorted xs ↔ s ∈ xs := by
  rw [uniqueSorted]
  rw [(sortDesc_perm xs.dedup).mem_iff]
  exact List.mem_dedup

theorem uniqueSorted_nodup (xs : List ℚ) : (uniqueSorted xs).Nodup := by
  rw [uniqueSorted]
  exact (sortDesc_perm xs.dedup).nodup_iff.mpr (List.nodup_dedup xs)

theorem uniqueSorted_strict (xs : List ℚ) :
    List.Pairwise (fun a b => a > b) (uniqueSorted xs) := by
  have h1 : List.Pairwise (fun a b : ℚ => a ≥ b) (uniqueSorted xs) :=
    sortDesc_sorted xs.dedup
  have h2 : List.Pairwise (fun a b : ℚ => a ≠ b) (uniqueSorted xs) :=
    uniqueSorted_nodup xs
  refine (h1.and h2).imp ?_
  rintro a b ⟨hge, hne⟩
  exact lt_of_le_of_ne hge hne.symm

theorem filter_length_rank :
    ∀ (us : List ℚ), List.Pairwise (fun a b => a > b) us →
    ∀ (i : ℕ) (hi : i < us.length),
    (us.filter (fun t => decide (us.get ⟨i, hi⟩ < t))).length = i := by
  intro us
  induction us with
  | nil => intro _ i hi; exact absurd hi (by simp)
  | cons a us ih =>
    intro hp i hi
    rcases List.pairwise_cons.mp hp with ⟨ha, hus⟩
    cases i with
    | zero =>
      show ((a :: us).filter (fun t => decide (a < t))).length = 0
      rw [List.filter_cons]
      have h1 : decide (a < a) = false := by simp
      rw [h1]
      simp only [Bool.false_eq_true, if_false]
      rw [List.filter_eq_nil_iff.mpr]
      · rfl
      · intro t ht
        simp only [decide_eq_true_eq]
        exact lt_asymm (ha t ht)
    | succ j =>
      have hj : j < us.length := by simpa using hi
      show ((a :: us).filter (fun t => decide (us.get ⟨j, hj⟩ < t))).length = j + 1
      rw [List.filter_cons]
      have hga : us.get ⟨j, hj⟩ < a := ha _ (us.get_mem _ _)
      have h1 : decide (us.get ⟨j, hj⟩ < a) = true := by
        simp only [decide_eq_true_eq]
        exact hga
      rw [h1]
      simp only [if_true, List.length_cons]
      rw [ih hus j hj]

theorem dgc_eq (s : ℚ) (sizes : List ℚ) :
    distinctGreaterCount s sizes =
      ((uniqueSorted sizes).filter (fun t => decide (s < t))).length := by
  rw [distinctGreaterCount]
  apply List.Perm.length_eq
  apply (List.perm_ext_iff_of_nodup (List.nodup_dedup _)
    ((uniqueSorted_nodup sizes).filter _)).mpr
  intro a
  simp [List.mem_dedup, List.mem_filter, uniqueSorted_mem]

theorem lookup_enumFrom :
    ∀ (l : List ℚ), l.Nodup →
    ∀ (n : ℕ) (s : ℚ) (lvl : String),
    (((l.enumFrom n).map (fun p => (p.2, levelName p.1))).lookup s = some lvl ↔
      ∃ i, ∃ hi : i < l.length, l.get ⟨i, hi⟩ = s ∧ lvl = levelName (n + i)) := by
  intro l
  induction l with
  | nil => intro _ n s lvl; simp
  | cons a l ih =>
    intro hnd n s lvl
    rcases List.nodup_cons.mp hnd with ⟨hna, hndl⟩
    by_cases hsa : s = a
    · subst hsa
      have hbeq : (s == s) = true := by simp
      simp only [List.enumFrom_cons, List.map_cons, List.lookup, hbeq]
      constructor
      · intro h
        refine ⟨0, by simp, rfl, ?_⟩
        have := Option.some.inj h
        simpa using this.symm
      · rintro ⟨i, hi, hget, hlvl⟩
        cases i with
        | zero =>
          subst hlvl
          simp
        | succ j =>
          have hj : j < l.length := by simpa using hi
          have hmem : s ∈ l := by
            rw [← hget]
            exact List.get_mem l j hj
          exact absurd hmem hna
    · have hbeq : (s == a) = false := by simp [hsa]
      simp only [List.enumFrom_cons, List.map_cons, List.lookup, hbeq]
      rw [ih hndl (n + 1) s lvl]
      constructor
      · rintro ⟨i, hi, hget, hlvl⟩
        refine ⟨i + 1, by simpa using hi, hget, ?_⟩
        rw [hlvl]
        congr 1
        omega
      · rintro ⟨i, hi, hget, hlvl⟩
        cases i with
        | zero => exact absurd hget.symm hsa
        | succ j =>
          have hj : j < l.length := by simpa using hi
          refine ⟨j, hj, hget, ?_⟩
          rw [hlvl]
          congr 1
          omega

end PDFOutline

namespace PDFOutline

/-! ## C4 — the font-size classifier -/

/-- C4: the LevelMap assigns a level to exactly the sizes that occur
among the merged lines and have fewer than 3 distinct sizes above them,
the assigned level being H(rank+1) where rank is the number of distinct
larger sizes (largest → H1); with no merged lines the map is empty; the
example sizes [24,24,18,18,12,12,10] yield {24:H1, 18:H2, 12:H3} and the
size-10 line is excluded from the output. -/
theorem claim4_classifier :
    (∀ (sizes : List ℚ) (s : ℚ) (lvl : String),
      (group_font_sizes sizes).lookup s = some lvl ↔
        (s ∈ sizes ∧ distinctGreaterCount s sizes < 3
          ∧ lvl = levelName (distinctGreaterCount s sizes)))
    ∧ group_font_sizes [] = []
    ∧ group_font_sizes (mlClassify.map (fun l => l.size)) =
        [(24, "H1"), (18, "H2"), (12, "H3")]
    ∧ (∀ h ∈ headingsLoop lvlEx [] mlClassify, h.text ≠ "t10a") := by
  refine ⟨?_, rfl, by with_unfolding_all decide, by with_unfolding_all decide⟩
  intro sizes s lvl
  have hnd : (uniqueSorted sizes).Nodup := uniqueSorted_nodup sizes
  have hpw := uniqueSorted_strict sizes
  have hnd3 : ((uniqueSorted sizes).take 3).Nodup :=
    hnd.sublist (List.take_sublist 3 (uniqueSorted sizes))
  have hdef : group_font_sizes sizes =
      (((uniqueSorted sizes).take 3).enumFrom 0).map
        (fun p => (p.2, levelName p.1)) := rfl
  rw [hdef, lookup_enumFrom ((uniqueSorted sizes).take 3) hnd3 0 s lvl]
  have hlen3 : ((uniqueSorted sizes).take 3).length =
      min 3 (uniqueSorted sizes).length := List.length_take 3 _
  constructor
  · rintro ⟨i, hi, hget, hlvl⟩
    have hiu : i < (uniqueSorted sizes).length := by
      rw [hlen3] at hi
      omega
    have hgeq : (uniqueSorted sizes).get ⟨i, hiu⟩ = s := by
      rw [← hget]
      simp [List.get_eq_getElem, List.getElem_take]
    have hrank : distinctGreaterCount s sizes = i := by
      rw [dgc_eq, ← hgeq]
      exact filter_length_rank (uniqueSorted sizes) hpw i hiu
    refine ⟨?_, ?_, ?_⟩
    · have hm : s ∈ uniqueSorted sizes := by
        rw [← hgeq]
        exact List.get_mem _ i hiu
      exact (uniqueSorted_mem sizes s).mp hm
    · rw [hrank]
      rw [hlen3] at hi
      omega
    · rw [hrank]
      simpa using hlvl
  · rintro ⟨hmem, hlt3, hlvl⟩
    have hmemus : s ∈ uniqueSorted sizes := (uniqueSorted_mem sizes s).mpr hmem
    rcases List.mem_iff_get.mp hmemus with ⟨⟨i, hiu⟩, hget⟩
    have hrank : distinctGreaterCount s sizes = i := by
      rw [dgc_eq, ← hget]
      exact filter_length_rank (uniqueSorted sizes) hpw i hiu
    have hi3 : i < 3 := by
      rw [hrank] at hlt3
      exact hlt3
    have hitake : i < ((uniqueSorted sizes).take 3).length := by
      rw [hlen3]
      omega
    refine ⟨i, hitake, ?_, ?_⟩
    · rw [← hget]
      simp [List.get_eq_getElem, List.getElem_take]
    · rw [hlvl, hrank]
      simp

theorem claim4_witness :
    (group_font_sizes [24, 24, 18, 18, 12, 12, 10]).lookup 18 = some "H2" := by
  refine (claim4_classifier.1 [24, 24, 18, 18, 12, 12, 10] 18 "H2").mpr
    ⟨by with_unfolding_all decide, by with_unfolding_all decide,
     by with_unfolding_all decide⟩

end PDFOutline


namespace PDFOutline

/-! ## Title-resolver lemmas -/

theorem charListLt_irrefl : ∀ (l : List Char), charListLt l l = false
  | [] => rfl
  | c :: cs => by
    simp only [charListLt, lt_irrefl, if_false]
    exact charListLt_irrefl cs

theorem charListLt_trans :
    ∀ (a b c : List Char), charListLt a b = true → charListLt b c = true →
      charListLt a c = true
  | [], [], _ => by intro h _; exact absurd h (by simp [charListLt])
  | [], _ :: _, [] => by intro _ h; exact absurd h (by simp [charListLt])
  | [], _ :: _, _ :: _ => by intro _ _; simp [charListLt]
  | _ :: _, [], _ => by intro h _; exact absurd h (by simp [charListLt])
  | _ :: _, _ :: _, [] => by intro _ h; exact absurd h (by simp [charListLt])
  | a₀ :: as, b₀ :: bs, c₀ :: cs => by
    intro h1 h2
    simp only [charListLt] at h1 h2 ⊢
    by_cases hab : a₀ < b₀
    · by_cases hbc : b₀ < c₀
      · simp [lt_trans hab hbc]
      · rw [if_neg hbc] at h2
        by_cases hcb : c₀ < b₀
        · rw [if_pos hcb] at h2
          exact absurd h2 (by simp)
        · have heq : b₀ = c₀ := le_antisymm (not_lt.mp hcb) (not_lt.mp hbc)
          rw [← heq]
          simp [hab]
    · rw [if_neg hab] at h1
      by_cases hba : b₀ < a₀
      · rw [if_pos hba] at h1
        exact absurd h1 (by simp)
      · rw [if_neg hba] at h1
        have heq : a₀ = b₀ := le_antisymm (not_lt.mp hba) (not_lt.mp hab)
        subst heq
        by_cases hac : a₀ < c₀
        · simp [hac]
        · rw [if_neg hac] at h2 ⊢
          by_cases hca : c₀ < a₀
          · rw [if_pos hca] at h2
            exact absurd h2 (by simp)
          · rw [if_neg hca] at h2 ⊢
            exact charListLt_trans as bs cs h1 h2

theorem charListLt_connex :
    ∀ (a b : List Char), charListLt a b = false → charListLt b a = false →
      a = b
  | [], [] => by intro _ _; rfl
  | [], _ :: _ => by intro h _; exact absurd h (by simp [charListLt])
  | _ :: _, [] => by intro _ h; exact absurd h (by simp [charListLt])
  | a₀ :: as, b₀ :: bs => by
    intro h1 h2
    simp only [charListLt] at h1 h2
    by_cases hab : a₀ < b₀
    · rw [if_pos hab] at h1
      exact absurd h1 (by simp)
    · rw [if_neg hab] at h1
      by_cases hba : b₀ < a₀
      · rw [if_pos hba] at h2
        exact absurd h2 (by simp)
      · rw [if_neg hba] at h1
        rw [if_neg hba, if_neg hab] at h2
        have heq : a₀ = b₀ := le_antisymm (not_lt.mp hba) (not_lt.mp hab)
        rw [heq, charListLt_connex as bs h1 h2]

theorem candLt_irrefl (x : ℚ × ℚ × String) : candLt x x = false := by
  simp [candLt, charListLt_irrefl]

theorem candLt_trans (a b c : ℚ × ℚ × String)
    (h1 : candLt a b = true) (h2 : candLt b c = true) : candLt a c = true := by
  simp only [candLt, Bool.or_eq_true, Bool.and_eq_true, decide_eq_true_eq,
    beq_iff_eq] at h1 h2 ⊢
  rcases h1 with h1 | ⟨he1, h1⟩
  · rcases h2 with h2 | ⟨he2, h2⟩
    · exact Or.inl (lt_trans h1 h2)
    · exact Or.inl (by rw [← he2]; exact h1)
  · rcases h2 with h2 | ⟨he2, h2⟩
    · exact Or.inl (by rw [he1]; exact h2)
    · refine Or.inr ⟨he1.trans he2, ?_⟩
      rcases h1 with h1 | ⟨hf1, h1⟩
      · rcases h2 with h2 | ⟨hf2, h2⟩
        · exact Or.inl (lt_trans h1 h2)
        · exact Or.inl (by rw [← hf2]; exact h1)
      · rcases h2 with h2 | ⟨hf2, h2⟩
        · exact Or.inl (by rw [hf1]; exact h2)
        · exact Or.inr ⟨hf1.trans hf2, charListLt_trans _ _ _ h1 h2⟩

theorem candLt_connex (x y : ℚ × ℚ × String)
    (h1 : candLt x y = false) (h2 : candLt y x = false) : x = y := by
  simp only [candLt, Bool.or_eq_false_iff, Bool.and_eq_false_iff,
    decide_eq_false_iff_not, beq_eq_false_iff_ne, ne_eq] at h1 h2
  obtain ⟨h1a, h1b⟩ := h1
  obtain ⟨h2a, h2b⟩ := h2
  have hq1 : x.1 = y.1 := le_antisymm (not_lt.mp h2a) (not_lt.mp h1a)
  rcases h1b with h1b | ⟨h1c, h1d⟩
  · exact absurd hq1 h1b
  rcases h2b with h2b | ⟨h2c, h2d⟩
  · exact absurd hq1.symm h2b
  have hq2 : x.2.1 = y.2.1 := le_antisymm (not_lt.mp h2c) (not_lt.mp h1c)
  rcases h1d with h1d | h1d
  · exact absurd hq2 h1d
  rcases h2d with h2d | h2d
  · exact absurd hq2.symm h2d
  have hs : x.2.2 = y.2.2 := by
    have hl := charListLt_connex _ _ h1d h2d
    exact String.ext hl
  exact Prod.ext hq1 (Prod.ext hq2 hs)

theorem pickBest_mem :
    ∀ (cs : List (ℚ × ℚ × String)) (c : ℚ × ℚ × String),
    pickBest c cs ∈ c :: cs := by
  intro cs
  induction cs with
  | nil => intro c; simp [pickBest]
  | cons d ds ih =>
    intro c
    rw [show pickBest c (d :: ds) = pickBest (if candLt c d then d else c) ds
      from rfl]
    by_cases h : candLt c d = true
    · rw [if_pos h]
      exact List.mem_cons_of_mem c (ih d)
    · rw [if_neg h]
      rcases List.mem_cons.mp (ih c) with h1 | h2
      · rw [h1]
        exact List.mem_cons_self _ _
      · exact List.mem_cons_of_mem c (List.mem_cons_of_mem d h2)

theorem pickBest_max :
    ∀ (cs : List (ℚ × ℚ × String)) (c d : ℚ × ℚ × String), d ∈ c :: cs →
    candLt (pickBest c cs) d = false := by
  intro cs
  induction cs with
  | nil =>
    intro c d hd
    rcases List.mem_singleton.mp hd with rfl
    simp [pickBest, candLt_irrefl]
  | cons e es ih =>
    intro c d hd
    rw [show pickBest c (e :: es) = pickBest (if candLt c e then e else c) es
      from rfl]
    by_cases hce : candLt c e = true
    · rw [if_pos hce]
      rcases List.mem_cons.mp hd with rfl | hd2
      · cases hx : candLt (pickBest e es) d
        · rfl
        · exfalso
          have htr := candLt_trans _ _ _ hx hce
          have hmax := ih e e (by simp)
          rw [hmax] at htr
          exact Bool.noConfusion htr
      · exact ih e d hd2
    · rw [if_neg hce]
      have hce' : candLt c e = false := Bool.of_not_eq_true hce
      rcases List.mem_cons.mp hd with rfl | hd2
      · exact ih d d (by simp)
      · rcases List.mem_cons.mp hd2 with rfl | hd3
        · cases hx : candLt (pickBest c es) d
          · rfl
          · exfalso
            have hbc : candLt (pickBest c es) c = false := ih c c (by simp)
            by_cases hec : candLt d c = true
            · have htr := candLt_trans _ _ _ hx hec
              rw [hbc] at htr
              exact Bool.noConfusion htr
            · have hec' : candLt d c = false := Bool.of_not_eq_true hec
              have heq : d = c := candLt_connex d c hec' hce'
              rw [heq] at hx
              rw [hx] at hbc
              exact Bool.noConfusion hbc
        · exact ih c d (List.mem_cons_of_mem c hd3)

end PDFOutline

namespace PDFOutline

/-! ## C6 — title fallback selection -/

/-- C6: when the metadata title is absent or generic, the resolver
returns the sentinel `"Untitled Document"` if there are no first-page
candidates, and otherwise the text of a candidate with maximal font size
that, among the maximal-size candidates, has maximal `-yTop` (i.e. is
closest to the top of the page). -/
theorem claim6_title_fallback (doc : Document)
    (hg : is_generic_title doc.metaTitle = true) :
    (titleCandidates doc = [] → get_document_title doc = "Untitled Document")
    ∧ (∀ c cs, titleCandidates doc = c :: cs →
        ∃ b ∈ c :: cs, get_document_title doc = b.2.2
          ∧ (∀ d ∈ c :: cs, d.1 ≤ b.1)
          ∧ (∀ d ∈ c :: cs, d.1 = b.1 → d.2.1 ≤ b.2.1)) := by
  constructor
  · intro hc
    simp [get_document_title, hg, hc]
  · intro c cs hc
    have hgd : get_document_title doc = (pickBest c cs).2.2 := by
      simp [get_document_title, hg, hc]
    refine ⟨pickBest c cs, pickBest_mem cs c, hgd, ?_, ?_⟩
    · intro d hd
      have h := pickBest_max cs c d hd
      simp only [candLt, Bool.or_eq_false_iff, decide_eq_false_iff_not] at h
      exact not_lt.mp h.1
    · intro d hd heq
      have h := pickBest_max cs c d hd
      simp only [candLt, Bool.or_eq_false_iff, Bool.and_eq_false_iff,
        decide_eq_false_iff_not, beq_eq_false_iff_ne, ne_eq] at h
      rcases h.2 with h2 | ⟨h3, -⟩
      · exact absurd heq.symm h2
      · exact not_lt.mp h3

theorem claim6_witness :
    is_generic_title docFallback.metaTitle = true
    ∧ ∃ b ∈ (((30 : ℚ), (-90 : ℚ), "Big Title") ::
          [((11 : ℚ), (-40 : ℚ), "small text")]),
        get_document_title docFallback = b.2.2
          ∧ (∀ d ∈ (((30 : ℚ), (-90 : ℚ), "Big Title") ::
              [((11 : ℚ), (-40 : ℚ), "small text")]), d.1 ≤ b.1)
          ∧ (∀ d ∈ (((30 : ℚ), (-90 : ℚ), "Big Title") ::
              [((11 : ℚ), (-40 : ℚ), "small text")]), d.1 = b.1 → d.2.1 ≤ b.2.1) := by
  have hg : is_generic_title docFallback.metaTitle = true := by
    with_unfolding_all decide
  exact ⟨hg, (claim6_title_fallback docFallback hg).2
    ((30 : ℚ), (-90 : ℚ), "Big Title") [((11 : ℚ), (-40 : ℚ), "small text")]
    (by with_unfolding_all decide)⟩

end PDFOutline
